import Mathlib

/-!
Verification of the SparkMiner mining core against its specification.

The definitions below are shallow embeddings of the functions in
src/src/mining/miner.cpp and src/src/stratum/stratum.cpp.  Byte buffers are
modelled as `List Nat` with every element < 256 where that matters; 32-bit
machine integers are `Nat` reduced modulo 2^32 at the points where the C code
overflows. The repository's `sha256_types.h`, `sha256_hw.h` and
`stratum_types.h` headers are not part of the sources; the pieces that come
from them are modelled from the spec and marked as such.
-/

namespace SparkMiner

/-! Hex utilities, from src/src/mining/miner.cpp (decodeHexChar, hexToBytes,
encodeExtraNonce) and src/src/stratum/stratum.cpp (formatHex8). -/

/-- From `decodeHexChar` in miner.cpp: decode one hex digit, 0 on anything
else. -/
def decodeHexChar (c : Char) : Nat :=
  if '0' ≤ c ∧ c ≤ '9' then c.toNat - '0'.toNat
  else if 'a' ≤ c ∧ c ≤ 'f' then c.toNat - 'a'.toNat + 10
  else if 'A' ≤ c ∧ c ≤ 'F' then c.toNat - 'A'.toNat + 10
  else 0

/-- From `hexToBytes` in miner.cpp: decode a hex string two characters per
byte.  The C loop `for (i = 0; i < len; i += 2)` runs once more when `len`
is odd: that iteration pairs the dangling character with `in[len]`, the
string's NUL terminator, which `decodeHexChar` maps to 0, and writes one
extra byte — so an odd-length input decodes to `(len + 1) / 2` bytes. -/
def hexToBytes : List Char → List Nat
  | c1 :: c2 :: rest => (decodeHexChar c1 * 16 + decodeHexChar c2) :: hexToBytes rest
  | [c1] => [decodeHexChar c1 * 16]
  | [] => []

/-- The lowercase hex digit table of `formatHex8` in stratum.cpp. -/
def hexCharLower (n : Nat) : Char :=
  ("0123456789abcdef").toList.getD n '0'

/-- The uppercase hex digit table `tbl` of `encodeExtraNonce` in miner.cpp. -/
def hexCharUpper (n : Nat) : Char :=
  ("0123456789ABCDEF").toList.getD n '0'

/-- The loop of `formatHex8` in stratum.cpp written as structural recursion on
the number of digits still to emit: the loop fills the buffer from index 7
down to 0, writing the low nibble and shifting `value` right by 4 each step,
so digit index `i` holds nibble `7 - i` of the value. -/
def formatHexAux : Nat → Nat → List Char
  | 0, _ => []
  | k + 1, v => formatHexAux k (v / 16) ++ [hexCharLower (v % 16)]

/-- From `formatHex8` in stratum.cpp: eight hex digits, value rendered
big-endian, lowercase table. -/
def formatHex8 (value : Nat) : List Char := formatHexAux 8 value

/-- From `encodeExtraNonce` in miner.cpp: the loop writes, from the right end
of the buffer, the low byte of `en` as two uppercase hex digits (high nibble
first) and then shifts `en` right by 8, for `len` bytes in total. -/
def encodeExtraNonce : Nat → Nat → List Char
  | 0, _ => []
  | len + 1, en =>
      encodeExtraNonce len (en / 256) ++ [hexCharUpper (en / 16 % 16), hexCharUpper (en % 16)]

/-- Spec-side interpretation: parse a hex string back to its integer value,
most significant digit first. -/
def parseHex (cs : List Char) : Nat :=
  cs.foldl (fun acc c => acc * 16 + decodeHexChar c) 0

/-- A character of the lowercase hex alphabet used by the wire format. -/
def isLowerHexDigit (c : Char) : Prop :=
  c ∈ ("0123456789abcdef").toList

/-- A character of the uppercase hex alphabet. -/
def isUpperHexDigit (c : Char) : Prop :=
  c ∈ ("0123456789ABCDEF").toList

instance (c : Char) : Decidable (isLowerHexDigit c) := by
  unfold isLowerHexDigit; infer_instance

instance (c : Char) : Decidable (isUpperHexDigit c) := by
  unfold isUpperHexDigit; infer_instance

/-! Target functions, from src/src/mining/miner.cpp. -/

/-- The four bytes of a 32-bit value as laid out little-endian in memory
(an ESP32 is little-endian), as produced by `memcpy(target, &mantissa, 4)`
and the `uint32_t` store in `bits_to_target`. -/
def u32LE (v : Nat) : List Nat :=
  [v % 256, v / 256 % 256, v / 65536 % 256, v / 16777216 % 256]

/-- From `bits_to_target` in miner.cpp: exponent is the top byte of `nBits`,
the mantissa is the low 23 bits together with bit 0x00800000, the 32-byte
buffer is zeroed and the 4-byte mantissa word is stored at offset
`exponent - 3` (or the mantissa is shifted down when `exponent ≤ 3`).
The argument is reduced modulo 2^32 as the parameter is `uint32_t`. -/
def bits_to_target (nBits : Nat) : List Nat :=
  let n := nBits % 4294967296
  let exponent := n / 16777216
  let mantissa0 := n % 8388608
  let mantissa := if n / 8388608 % 2 = 1 then mantissa0 + 8388608 else mantissa0
  if exponent ≤ 3 then
    u32LE (mantissa / 256 ^ (3 - exponent)) ++ List.replicate 28 0
  else
    List.replicate (exponent - 3) 0 ++ u32LE mantissa ++
      List.replicate (32 - (exponent - 3) - 4) 0

/-- The loop of `check_target` in miner.cpp runs from byte index 31 down to 0;
here it consumes the reversed byte lists.  Hash byte smaller means pass,
larger means fail, all equal means pass. -/
def checkTargetLoop : List Nat → List Nat → Bool
  | h :: hs, t :: ts =>
      if h < t then true else if h > t then false else checkTargetLoop hs ts
  | _, _ => true

/-- From `check_target` in miner.cpp: compare 32-byte digest and target from
the high-order byte (index 31) downward. -/
def check_target (hash target : List Nat) : Bool :=
  checkTargetLoop hash.reverse target.reverse

/-! Integer interpretations of byte strings (spec side, §4.A / §8.8). -/

/-- Value of a byte string with the most significant byte first. -/
def beValue : List Nat → Nat
  | [] => 0
  | b :: bs => b * 256 ^ bs.length + beValue bs

/-- Value of a byte string with the least significant byte first. -/
def leValue : List Nat → Nat
  | [] => 0
  | b :: bs => b + 256 * leValue bs

/-- The spec's `big_endian_u256`: interpret an engine-convention 32-byte
buffer as an integer whose most significant byte is at index 31. -/
def bigEndianU256 (bytes : List Nat) : Nat := beValue bytes.reverse

/-! SHA-256.  The repository's software hash entrypoint `sha256(ctx, in, len)`
is declared in sha256_types.h / sha256_hw.h, which are not among the sources;
spec §4.A fixes it to be standard SHA-256 over an arbitrary-length byte
buffer, so it is implemented here in full (FIPS 180-4). -/

/-- Right rotation of a 32-bit word held as a `Nat` below 2^32. -/
def rotr32 (x n : Nat) : Nat :=
  (x / 2 ^ n + x % 2 ^ n * 2 ^ (32 - n)) % 4294967296

/-- SHA-256 Ch function; complement is xor with the 32-bit all-ones mask. -/
def ch (x y z : Nat) : Nat := (x &&& y) ^^^ ((x ^^^ 4294967295) &&& z)

/-- SHA-256 Maj function. -/
def maj (x y z : Nat) : Nat := (x &&& y) ^^^ (x &&& z) ^^^ (y &&& z)

/-- SHA-256 Σ0. -/
def bigSigma0 (x : Nat) : Nat := rotr32 x 2 ^^^ rotr32 x 13 ^^^ rotr32 x 22

/-- SHA-256 Σ1. -/
def bigSigma1 (x : Nat) : Nat := rotr32 x 6 ^^^ rotr32 x 11 ^^^ rotr32 x 25

/-- SHA-256 σ0. -/
def smallSigma0 (x : Nat) : Nat := rotr32 x 7 ^^^ rotr32 x 18 ^^^ x / 2 ^ 3

/-- SHA-256 σ1. -/
def smallSigma1 (x : Nat) : Nat := rotr32 x 17 ^^^ rotr32 x 19 ^^^ x / 2 ^ 10

/-- 32-bit modular addition. -/
def add32 (a b : Nat) : Nat := (a + b) % 4294967296

/-- The 64 SHA-256 round constants, in decimal. -/
def K256 : List Nat :=
  [1116352408, 1899447441, 3049323471, 3921009573, 961987163,
   1508970993, 2453635748, 2870763221, 3624381080, 310598401,
   607225278, 1426881987, 1925078388, 2162078206, 2614888103,
   3248222580, 3835390401, 4022224774, 264347078, 604807628,
   770255983, 1249150122, 1555081692, 1996064986, 2554220882,
   2821834349, 2952996808, 3210313671, 3336571891, 3584528711,
   113926993, 338241895, 666307205, 773529912, 1294757372,
   1396182291, 1695183700, 1986661051, 2177026350, 2456956037,
   2730485921, 2820302411, 3259730800, 3345764771, 3516065817,
   3600352804, 4094571909, 275423344, 430227734, 506948616,
   659060556, 883997877, 958139571, 1322822218, 1537002063,
   1747873779, 1955562222, 2024104815, 2227730452, 2361852424,
   2428436474, 2756734187, 3204031479, 3329325298]

/-- The SHA-256 initial hash state H0..H7, in decimal. -/
def sha256IV : List Nat :=
  [1779033703, 3144134277, 1013904242,
   2773480762, 1359893119, 2600822924,
   528734635, 1541459225]

/-- Group bytes into big-endian 32-bit words. -/
def bytesToWordsBE : List Nat → List Nat
  | b0 :: b1 :: b2 :: b3 :: rest =>
      (b0 * 16777216 + b1 * 65536 + b2 * 256 + b3) :: bytesToWordsBE rest
  | _ => []

/-- Big-endian bytes of a 32-bit word. -/
def u32BE (v : Nat) : List Nat :=
  [v / 16777216 % 256, v / 65536 % 256, v / 256 % 256, v % 256]

/-- Big-endian bytes of the 64-bit message bit length. -/
def u64BE (v : Nat) : List Nat :=
  [v / 72057594037927936 % 256, v / 281474976710656 % 256,
   v / 1099511627776 % 256, v / 4294967296 % 256,
   v / 16777216 % 256, v / 65536 % 256, v / 256 % 256, v % 256]

/-- Extend the 16 message words by `k` more schedule words. -/
def buildSchedule (w : List Nat) : Nat → List Nat
  | 0 => w
  | k + 1 =>
      let ws := buildSchedule w k
      let i := 16 + k
      ws ++ [add32 (add32 (smallSigma1 (ws.getD (i - 2) 0)) (ws.getD (i - 7) 0))
              (add32 (smallSigma0 (ws.getD (i - 15) 0)) (ws.getD (i - 16) 0))]

/-- One SHA-256 round on the working variables `[a,b,c,d,e,f,g,h]`. -/
def compressRound (ws : List Nat) (st : List Nat) (t : Nat) : List Nat :=
  match st with
  | [a, b, c, d, e, f, g, h] =>
      let t1 := add32 (add32 (add32 h (bigSigma1 e))
                  (add32 (ch e f g) (K256.getD t 0))) (ws.getD t 0)
      let t2 := add32 (bigSigma0 a) (maj a b c)
      [add32 t1 t2, a, b, c, add32 d t1, e, f, g]
  | s => s

/-- Compress one 64-byte block into the running state. -/
def compressBlock (h : List Nat) (block : List Nat) : List Nat :=
  let ws := buildSchedule (bytesToWordsBE block) 48
  let st := (List.range 64).foldl (compressRound ws) h
  List.zipWith add32 h st

/-- Merkle–Damgård padding: append 0x80, zeros to 56 mod 64, then the 64-bit
bit length. -/
def padMessage (msg : List Nat) : List Nat :=
  msg ++ [128] ++ List.replicate ((119 - msg.length % 64) % 64) 0 ++ u64BE (8 * msg.length)

/-- Split into 64-byte blocks; the first argument is recursion fuel, always
called with at least the length of the list. -/
def splitBlocks : Nat → List Nat → List (List Nat)
  | 0, _ => []
  | _ + 1, [] => []
  | fuel + 1, l => l.take 64 :: splitBlocks fuel (l.drop 64)

/-- Modelled from the spec: `sha256(out, in, len)` (declared in the absent
sha256_types.h / sha256_hw.h) is standard SHA-256 per spec §4.A; the 32-byte
digest is produced big-endian word by word. -/
def sha256 (msg : List Nat) : List Nat :=
  let padded := padMessage msg
  let finalH := (splitBlocks padded.length padded).foldl compressBlock sha256IV
  (finalH.map u32BE).flatten

/-! Merkle root and coinbase, from src/src/mining/miner.cpp. -/

/-- From `double_sha256_merkle` in miner.cpp: hash the 64-byte pair buffer,
then hash the 32-byte digest again. -/
def double_sha256_merkle (buf64 : List Nat) : List Nat := sha256 (sha256 buf64)

/-- From `calculateMerkleRoot` in miner.cpp: the pair buffer starts as the
coinbase hash; for each branch, 64 hex characters are decoded into the upper
half of the pair (no byte reversal) and the double hash becomes the new lower
half.  The final lower half is the root. -/
def calculateMerkleRoot (coinbaseHash : List Nat) (merkleBranch : List (List Char)) : List Nat :=
  merkleBranch.foldl
    (fun pair branchHex => double_sha256_merkle (pair ++ hexToBytes (branchHex.take 64)))
    coinbaseHash

/-- Modelled from the spec: the fields of `stratum_job_t` used by the coinbase
builder.  The struct lives in stratum_types.h, which is absent from the
sources; spec §3 describes `coinbase1` and `coinbase2` as hex blobs with no
stated bound. -/
structure stratum_job_t where
  jobId : List Char
  coinBase1 : List Char
  coinBase2 : List Char

/-- The bytes `createCoinbaseHash` in miner.cpp writes into its 512-byte
`coinbase[512]` buffer: decoded coinbase1, then decoded extranonce1, then the
decoded hex encoding of extranonce2, then decoded coinbase2.  The function
performs no size check before writing. -/
def coinbaseBytes (job : stratum_job_t) (extraNonce1 : List Char)
    (extraNonce2Size extraNonce2 : Nat) : List Nat :=
  hexToBytes job.coinBase1 ++ hexToBytes extraNonce1 ++
    hexToBytes (encodeExtraNonce extraNonce2Size extraNonce2) ++ hexToBytes job.coinBase2

/-- From `createCoinbaseHash` in miner.cpp: double SHA-256 of the assembled
coinbase bytes, no byte reversal of the digest. -/
def createCoinbaseHash (job : stratum_job_t) (extraNonce1 : List Char)
    (extraNonce2Size extraNonce2 : Nat) : List Nat :=
  sha256 (sha256 (coinbaseBytes job extraNonce1 extraNonce2Size extraNonce2))

/-- The 80-byte header with the candidate nonce substituted: `block_header_t`
is 76 bytes of version, prev hash, merkle root, ntime and nbits followed by
the 4-byte nonce, stored little-endian on the ESP32. -/
def headerWithNonce (hdr : List Nat) (nonce : Nat) : List Nat :=
  hdr.take 76 ++ u32LE (nonce % 4294967296)

/-- One word of the output formatting: `__builtin_bswap32` of a little-endian
loaded word, stored little-endian, reverses its four bytes. -/
def bswapWord (b : List Nat) : List Nat := (b.take 4).reverse

/-- The output formatting of `verify_share_software` in miner.cpp:
`out[7-j] = __builtin_bswap32(words[j])`, i.e. output word `k` holds the
byte-reversed input word `7 - k`. -/
def formatDigest (b : List Nat) : List Nat :=
  bswapWord (b.drop 28) ++ bswapWord (b.drop 24) ++ bswapWord (b.drop 20) ++
    bswapWord (b.drop 16) ++ bswapWord (b.drop 12) ++ bswapWord (b.drop 8) ++
    bswapWord (b.drop 4) ++ bswapWord (b.drop 0)

/-- From `verify_share_software` in miner.cpp: double SHA-256 of the header
with the nonce substituted, output normalised to the hardware read-out
convention, and the early flag `hash_out->bytes[31] == 0 &&
hash_out->bytes[30] == 0`. -/
def verify_share_software (hdr : List Nat) (nonce : Nat) : List Nat × Bool :=
  let second_hash := sha256 (sha256 (headerWithNonce hdr nonce))
  let out := formatDigest second_hash
  (out, (out.getD 31 0 == 0) && (out.getD 30 0 == 0))

/-! Pool-difficulty division, from `divide_256bit_by_double` and
`adjust_target_for_difficulty` in miner.cpp.  The C code carries the
remainder in a `double`; it is modelled here over `ℚ`.  On the inputs the
proofs below evaluate this model at (limbs below 2^32, divisors 1 and 2, and
integer intermediate values below 2^53) every IEEE double operation the code
performs is exact, so the model coincides with the compiled code there.  The
cast `(uint64_t)res` truncates, which for the nonnegative `res` arising here
is the floor; the clamp keeps the limb at u64 max exactly as the source
comparison does. -/

/-- One iteration of the limb loop in `divide_256bit_by_double`: bring in the
carried remainder scaled by 2^64, divide, clamp or truncate to a `uint64_t`,
and compute the new remainder. -/
def divStep (divisor : ℚ) (limb : Nat) (rem : ℚ) : Nat × ℚ :=
  let val : ℚ := (limb : ℚ) + rem * 18446744073709551616
  let res : ℚ := val / divisor
  let out : Nat :=
    if 18446744073709551615 ≤ res then 18446744073709551615 else (⌊res⌋).toNat
  (out, val - (out : ℚ) * divisor)

/-- From `divide_256bit_by_double` in miner.cpp: process the four 64-bit
limbs from the most significant (index 3) down to the least significant,
carrying the floating-point remainder across limbs. -/
def divide_256bit_by_double (target : List Nat) (divisor : ℚ) : List Nat :=
  let s3 := divStep divisor (target.getD 3 0) 0
  let s2 := divStep divisor (target.getD 2 0) s3.2
  let s1 := divStep divisor (target.getD 1 0) s2.2
  let s0 := divStep divisor (target.getD 0 0) s1.2
  [s0.1, s1.1, s2.1, s3.1]

/-- The eight bytes of a 64-bit limb little-endian, as unpacked by the byte
shifts in `adjust_target_for_difficulty`. -/
def u64LEbytes (v : Nat) : List Nat :=
  [v % 256, v / 256 % 256, v / 65536 % 256, v / 16777216 % 256,
   v / 4294967296 % 256, v / 1099511627776 % 256,
   v / 281474976710656 % 256, v / 72057594037927936 % 256]

/-- From `adjust_target_for_difficulty` in miner.cpp: pack the 32 target
bytes into four little-endian 64-bit limbs, divide by the difficulty, and
unpack the limbs back into 32 bytes. -/
def adjust_target_for_difficulty (bt : List Nat) (difficulty : ℚ) : List Nat :=
  let parts := [leValue ((bt.drop 0).take 8), leValue ((bt.drop 8).take 8),
                leValue ((bt.drop 16).take 8), leValue ((bt.drop 24).take 8)]
  let res := divide_256bit_by_double parts difficulty
  u64LEbytes (res.getD 0 0) ++ u64LEbytes (res.getD 1 0) ++
    u64LEbytes (res.getD 2 0) ++ u64LEbytes (res.getD 3 0)

/-! Nonce lane assignment, from `miner_start_job` (lines 364-366) and the
`miner_task_core1` scanning loop (lines 668-683) in miner.cpp. -/

/-- From `miner_start_job`: `s_startNonce[0] = esp_random()`, a uniformly
random 32-bit value with no restriction to the lower half. -/
def startNonce0 (r : Nat) : Nat := r % 4294967296

/-- From `miner_start_job`: `s_startNonce[1] = s_startNonce[0] + 0x80000000`,
wrapping as a 32-bit add. -/
def startNonce1 (r : Nat) : Nat := (r % 4294967296 + 2147483648) % 4294967296

/-- The `k`-th nonce a worker lane scans: `hb.nonce` starts at the lane's
start value and `hb.nonce++` wraps modulo 2^32 (not at the half boundary). -/
def laneNonce (start k : Nat) : Nat := (start + k) % 4294967296

/-! Outbound message ids, from `getNextId` in stratum.cpp. -/

/-- From `getNextId` in stratum.cpp: reset the counter to 1 when it has
reached `UINT32_MAX`, then return it and post-increment (a 32-bit add).
Result: the id handed out and the counter state left behind. -/
def getNextId (s : Nat) : Nat × Nat :=
  let s' := if s = 4294967295 then 1 else s
  (s', (s' + 1) % 4294967296)

/-- The counter `s_messageId` after `n` calls; it is initialised to 1. -/
def msgIdState : Nat → Nat
  | 0 => 1
  | n + 1 => (getNextId (msgIdState n)).2

/-- The id returned by the `n`-th call to `getNextId` (0-based). -/
def msgId (n : Nat) : Nat := (getNextId (msgIdState n)).1

/-! Share submission, from `submitShare` and `stratum_task` in stratum.cpp. -/

/-- Modelled from the spec: the pool endpoint record (`pool_config_t` lives
in the absent stratum_types.h; spec §3 lists hostname, port, wallet,
password, worker name). -/
structure pool_config_t where
  url : List Char
  wallet : List Char
  password : List Char
  workerName : List Char

/-- Modelled from the spec: the submission record fields `submitShare`
reads. -/
structure submit_entry_t where
  jobId : List Char
  extraNonce2 : List Char
  timestamp : Nat
  nonce : Nat

/-- The stratum task's connection state: the two configured pools and the
local `usingBackup` flag of `stratum_task`. -/
structure StratumState where
  primaryPool : pool_config_t
  backupPool : pool_config_t
  usingBackup : Bool

/-- From `submitShare` in stratum.cpp: the five `mining.submit` params.  The
username is always `s_primaryPool.wallet`; the function never consults the
backup pool or the connection state. -/
def submitShare (st : StratumState) (entry : submit_entry_t) : List (List Char) :=
  [st.primaryPool.wallet, entry.jobId, entry.extraNonce2,
   formatHex8 entry.timestamp, formatHex8 entry.nonce]

/-- From `stratum_task` in stratum.cpp: the wallet passed to `subscribe` (and
hence to `mining.authorize`) is the backup pool's own wallet when the backup
connection is made, and the primary pool's wallet otherwise. -/
def sessionWallet (st : StratumState) : List Char :=
  if st.usingBackup then st.backupPool.wallet else st.primaryPool.wallet

/-- A job and connection state used to exercise the submit path. -/
def demoState : StratumState :=
  ⟨⟨[], ['p'], [], []⟩, ⟨[], ['b'], [], []⟩, true⟩

/-- A submission entry used to exercise the submit path. -/
def demoEntry : submit_entry_t := ⟨[], [], 0, 0⟩

theorem encodeExtraNonce_length : ∀ len en : Nat, (encodeExtraNonce len en).length = 2 * len
  | 0, _ => rfl
  | len + 1, en => by
    simp only [encodeExtraNonce, List.length_append, List.length_cons, List.length_nil,
      encodeExtraNonce_length len (en / 256)]
    omega

theorem parseHex_snoc (xs : List Char) (c : Char) :
    parseHex (xs ++ [c]) = parseHex xs * 16 + decodeHexChar c := by
  simp [parseHex, List.foldl_append]

theorem decodeHexChar_hexCharLower : ∀ m : Nat, m < 16 → decodeHexChar (hexCharLower m) = m := by
  decide

theorem decodeHexChar_hexCharUpper : ∀ m : Nat, m < 16 → decodeHexChar (hexCharUpper m) = m := by
  decide

theorem hexCharLower_isLower : ∀ m : Nat, m < 16 → isLowerHexDigit (hexCharLower m) := by
  decide

theorem hexCharUpper_isUpper : ∀ m : Nat, m < 16 → isUpperHexDigit (hexCharUpper m) := by
  decide

theorem formatHexAux_length : ∀ k v : Nat, (formatHexAux k v).length = k
  | 0, _ => rfl
  | k + 1, v => by
    simp [formatHexAux, formatHexAux_length k (v / 16)]

theorem formatHexAux_parse : ∀ k v : Nat, parseHex (formatHexAux k v) = v % 16 ^ k
  | 0, _ => by simp [formatHexAux, parseHex]; omega
  | k + 1, v => by
    rw [formatHexAux, parseHex_snoc, formatHexAux_parse k (v / 16),
      decodeHexChar_hexCharLower (v % 16) (Nat.mod_lt v (by omega)),
      pow_succ, mul_comm (16 ^ k) 16, Nat.mod_mul]
    ring

theorem formatHexAux_mem : ∀ (k v : Nat) (c : Char), c ∈ formatHexAux k v → isLowerHexDigit c
  | 0, _, _ => by simp [formatHexAux]
  | k + 1, v, c => by
    simp only [formatHexAux, List.mem_append, List.mem_singleton]
    rintro (h | h)
    · exact formatHexAux_mem k (v / 16) c h
    · exact h ▸ hexCharLower_isLower (v % 16) (Nat.mod_lt v (by omega))

theorem encodeExtraNonce_parse :
    ∀ len en : Nat, parseHex (encodeExtraNonce len en) = en % 256 ^ len
  | 0, _ => by simp [encodeExtraNonce, parseHex]; omega
  | len + 1, en => by
    have h2 : encodeExtraNonce (len + 1) en =
        (encodeExtraNonce len (en / 256) ++ [hexCharUpper (en / 16 % 16)]) ++
          [hexCharUpper (en % 16)] := by
      simp [encodeExtraNonce]
    rw [h2, parseHex_snoc, parseHex_snoc, encodeExtraNonce_parse len (en / 256),
      decodeHexChar_hexCharUpper (en / 16 % 16) (Nat.mod_lt _ (by omega)),
      decodeHexChar_hexCharUpper (en % 16) (Nat.mod_lt en (by omega)),
      pow_succ, mul_comm (256 ^ len) 256, Nat.mod_mul]
    ring_nf
    omega

theorem encodeExtraNonce_mem :
    ∀ (len en : Nat) (c : Char), c ∈ encodeExtraNonce len en → isUpperHexDigit c
  | 0, _, _ => by simp [encodeExtraNonce]
  | len + 1, en, c => by
    simp only [encodeExtraNonce, List.mem_append, List.mem_cons, List.mem_singleton,
      List.not_mem_nil]
    rintro (h | h | h)
    · exact encodeExtraNonce_mem len (en / 256) c h
    · exact h ▸ hexCharUpper_isUpper (en / 16 % 16) (Nat.mod_lt _ (by omega))
    · rcases h with h | h
      · exact h ▸ hexCharUpper_isUpper (en % 16) (Nat.mod_lt en (by omega))
      · simp at h

theorem beValue_append (xs ys : List Nat) :
    beValue (xs ++ ys) = beValue xs * 256 ^ ys.length + beValue ys := by
  induction xs with
  | nil => simp [beValue]
  | cons x xs ih =>
    simp only [List.cons_append, beValue, List.append_eq]
    rw [ih, List.length_append]
    ring

theorem beValue_lt (l : List Nat) (h : ∀ x ∈ l, x < 256) : beValue l < 256 ^ l.length := by
  induction l with
  | nil => simp [beValue]
  | cons b bs ih =>
    have hb : b < 256 := h b (by simp)
    have hbs : beValue bs < 256 ^ bs.length := ih (fun x hx => h x (by simp [hx]))
    simp only [beValue, List.length_cons]
    calc b * 256 ^ bs.length + beValue bs < (b + 1) * 256 ^ bs.length := by nlinarith
      _ ≤ 256 * 256 ^ bs.length := by
          exact Nat.mul_le_mul_right _ (by omega)
      _ = 256 ^ (bs.length + 1) := by ring

theorem bigEndianU256_eq_leValue : ∀ l : List Nat, bigEndianU256 l = leValue l
  | [] => rfl
  | b :: bs => by
    simp only [bigEndianU256, List.reverse_cons, beValue_append, leValue, beValue,
      List.length_nil, List.length_cons]
    rw [show beValue bs.reverse = bigEndianU256 bs from rfl, bigEndianU256_eq_leValue bs]
    simp [beValue]
    ring

theorem leValue_append (xs ys : List Nat) :
    leValue (xs ++ ys) = leValue xs + 256 ^ xs.length * leValue ys := by
  induction xs with
  | nil => simp [leValue]
  | cons x xs ih =>
    simp only [List.cons_append, leValue, List.append_eq]
    rw [ih, List.length_cons]
    ring

theorem leValue_replicate_zero (k : Nat) : leValue (List.replicate k 0) = 0 := by
  induction k with
  | zero => rfl
  | succ k ih => simp [List.replicate_succ, leValue, ih]

theorem leValue_u32LE (m : Nat) : leValue (u32LE m) = m % 4294967296 := by
  simp only [u32LE, leValue]
  omega

theorem checkTargetLoop_iff :
    ∀ hs ts : List Nat, hs.length = ts.length → (∀ x ∈ hs, x < 256) → (∀ x ∈ ts, x < 256) →
      (checkTargetLoop hs ts = true ↔ beValue hs ≤ beValue ts)
  | [], [], _, _, _ => by simp [checkTargetLoop]
  | [], _ :: _, h, _, _ => by simp at h
  | _ :: _, [], h, _, _ => by simp at h
  | h :: hs, t :: ts, hlen, hb, tb => by
    have hlen' : hs.length = ts.length := by simpa using hlen
    have hh : h < 256 := hb h (by simp)
    have ht : t < 256 := tb t (by simp)
    have hbs : ∀ x ∈ hs, x < 256 := fun x hx => hb x (by simp [hx])
    have tbs : ∀ x ∈ ts, x < 256 := fun x hx => tb x (by simp [hx])
    have hsv := beValue_lt hs hbs
    have tsv := beValue_lt ts tbs
    simp only [checkTargetLoop, beValue, hlen']
    rcases Nat.lt_trichotomy h t with hlt | heq | hgt
    · rw [if_pos hlt]
      have : (h + 1) * 256 ^ ts.length ≤ t * 256 ^ ts.length :=
        Nat.mul_le_mul_right _ (by omega)
      constructor
      · intro _
        rw [hlen'] at hsv
        nlinarith
      · intro _; rfl
    · subst heq
      rw [if_neg (lt_irrefl h), if_neg (lt_irrefl h)]
      rw [checkTargetLoop_iff hs ts hlen' hbs tbs]
      constructor
      · intro hle; omega
      · intro hle; omega
    · rw [if_neg (by omega : ¬ h < t), if_pos hgt]
      have : (t + 1) * 256 ^ ts.length ≤ h * 256 ^ ts.length :=
        Nat.mul_le_mul_right _ (by omega)
      constructor
      · intro hfalse; simp at hfalse
      · intro hle
        rw [hlen'] at hsv
        exfalso
        nlinarith

theorem divStep_exact (divisor : ℚ) (limb q : Nat)
    (hq : (q : ℚ) * divisor = (limb : ℚ)) (hd : divisor ≠ 0)
    (hlt : q < 18446744073709551615) :
    divStep divisor limb 0 = (q, 0) := by
  have hres : ((limb : ℚ) + 0 * 18446744073709551616) / divisor = (q : ℚ) := by
    rw [zero_mul, add_zero, ← hq, mul_div_assoc, div_self hd, mul_one]
  simp only [divStep, hres]
  rw [if_neg (by exact_mod_cast not_le.mpr hlt)]
  rw [Int.floor_natCast, Int.toNat_natCast]
  rw [zero_mul, add_zero, ← hq]
  simp

theorem divide_genesis_by_one :
    divide_256bit_by_double [0, 0, 0, 4294901760] 1 = [0, 0, 0, 4294901760] := by
  have h3 : divStep 1 4294901760 0 = (4294901760, 0) :=
    divStep_exact 1 _ _ (by norm_num) (by norm_num) (by norm_num)
  have h0 : divStep 1 0 0 = (0, 0) :=
    divStep_exact 1 _ _ (by norm_num) (by norm_num) (by norm_num)
  simp [divide_256bit_by_double, h3, h0]

theorem divide_genesis_by_two :
    divide_256bit_by_double [0, 0, 0, 4294901760] 2 = [0, 0, 0, 2147450880] := by
  have h3 : divStep 2 4294901760 0 = (2147450880, 0) :=
    divStep_exact 2 _ _ (by norm_num) (by norm_num) (by norm_num)
  have h0 : divStep 2 0 0 = (0, 0) :=
    divStep_exact 2 _ _ (by norm_num) (by norm_num) (by norm_num)
  simp [divide_256bit_by_double, h3, h0]

theorem msgIdState_bounds : ∀ n : Nat, 1 ≤ msgIdState n ∧ msgIdState n ≤ 4294967295
  | 0 => by simp [msgIdState]
  | n + 1 => by
    have ih := msgIdState_bounds n
    simp only [msgIdState, getNextId]
    split_ifs <;> omega

/-! The claims. -/

/-- Claim C1: `check_target` passes a 32-byte digest against a 32-byte
target exactly when the digest, read as a 256-bit integer with byte 31 most
significant, is at most the target so read; in particular equality passes. -/
theorem claim_C1 (hash target : List Nat) (hh : hash.length = 32)
    (ht : target.length = 32) (hhb : ∀ x ∈ hash, x < 256)
    (htb : ∀ x ∈ target, x < 256) :
    check_target hash target = true ↔ bigEndianU256 hash ≤ bigEndianU256 target := by
  unfold check_target bigEndianU256
  exact checkTargetLoop_iff hash.reverse target.reverse
    (by simp [hh, ht])
    (fun x hx => hhb x (List.mem_reverse.mp hx))
    (fun x hx => htb x (List.mem_reverse.mp hx))

/-- Witness for C1 at the genesis-era target compared against itself: an
equal digest passes the check. -/
theorem claim_C1_witness :
    (bits_to_target 486604799).length = 32 ∧
    check_target (bits_to_target 486604799) (bits_to_target 486604799) = true :=
  ⟨by decide,
   (claim_C1 (bits_to_target 486604799) (bits_to_target 486604799)
     (by decide) (by decide) (by decide) (by decide)).mpr (le_refl _)⟩

/-- Claim C2: for every header and nonce, the software share-verification
path returns `early_pass = true` exactly when bytes 31 and 30 of the digest
it produces are both zero (so an `early_pass = false` result can only have a
nonzero byte among the top two). -/
theorem claim_C2 (hdr : List Nat) (nonce : Nat) :
    (verify_share_software hdr nonce).2 = true ↔
      (verify_share_software hdr nonce).1.getD 31 0 = 0 ∧
      (verify_share_software hdr nonce).1.getD 30 0 = 0 := by
  simp [verify_share_software]

/-- Claim C3: the Merkle fold starts from the coinbase double-hash and, per
branch received, replaces the accumulator by the double SHA-256 of the
accumulator followed by the decoded branch bytes (no byte reversal); with
zero branches the root is the coinbase double-hash unchanged. -/
theorem claim_C3 :
    (∀ cb : List Nat, calculateMerkleRoot cb [] = cb) ∧
    (∀ (cb : List Nat) (b : List Char) (bs : List (List Char)),
      calculateMerkleRoot cb (b :: bs) =
        calculateMerkleRoot (double_sha256_merkle (cb ++ hexToBytes (b.take 64))) bs) :=
  ⟨fun _ => rfl, fun _ _ _ => rfl⟩

/-- Claim C4: `bits_to_target 0x1d00ffff` is the genesis-era maximum target
(bytes 26 and 27 are 0xff, all others zero), and in general, for an exponent
between 4 and 31, the value of the produced target is the 24-bit mantissa
shifted up by `exponent - 3` bytes. -/
theorem claim_C4 :
    bits_to_target 486604799 = List.replicate 26 0 ++ [255, 255] ++ List.replicate 4 0 ∧
    (∀ n : Nat, n < 4294967296 → 3 < n / 16777216 → n / 16777216 ≤ 31 →
      bigEndianU256 (bits_to_target n) = n % 16777216 * 256 ^ (n / 16777216 - 3)) := by
  constructor
  · decide
  · intro n h32 h3 h31
    have hmod : n % 4294967296 = n := Nat.mod_eq_of_lt h32
    have hm : (if n / 8388608 % 2 = 1 then n % 8388608 + 8388608 else n % 8388608) =
        n % 16777216 := by split <;> omega
    simp only [bits_to_target, hmod, hm]
    rw [if_neg (by omega)]
    rw [bigEndianU256_eq_leValue]
    rw [List.append_assoc, leValue_append, leValue_append, leValue_replicate_zero,
      leValue_u32LE, leValue_replicate_zero, List.length_replicate]
    have hlt : n % 16777216 % 4294967296 = n % 16777216 :=
      Nat.mod_eq_of_lt (lt_trans (Nat.mod_lt n (by omega)) (by omega))
    rw [hlt]
    ring

/-- Witness for C4: the general shift law instantiated at the genesis
`nbits`. -/
theorem claim_C4_witness :
    486604799 < 4294967296 ∧ 3 < 486604799 / 16777216 ∧ 486604799 / 16777216 ≤ 31 ∧
    bigEndianU256 (bits_to_target 486604799) =
      486604799 % 16777216 * 256 ^ (486604799 / 16777216 - 3) :=
  ⟨by norm_num, by norm_num, by norm_num,
   claim_C4.2 486604799 (by norm_num) (by norm_num) (by norm_num)⟩

/-- Claim C5: dividing the genesis-era maximum target by pool difficulty 1
returns the identical 32 bytes, dividing by 2 returns exactly half the
256-bit value, and any limb whose quotient exceeds the u64 maximum is
clamped to the u64 maximum. -/
theorem claim_C5 :
    adjust_target_for_difficulty (bits_to_target 486604799) 1 = bits_to_target 486604799 ∧
    2 * bigEndianU256 (adjust_target_for_difficulty (bits_to_target 486604799) 2) =
      bigEndianU256 (bits_to_target 486604799) ∧
    (∀ (divisor rem : ℚ) (limb : Nat),
      18446744073709551615 < ((limb : ℚ) + rem * 18446744073709551616) / divisor →
      (divStep divisor limb rem).1 = 18446744073709551615) := by
  refine ⟨?_, ?_, ?_⟩
  · have hbt : bits_to_target 486604799 =
        List.replicate 26 0 ++ [255, 255] ++ List.replicate 4 0 := by decide
    rw [hbt]
    simp only [adjust_target_for_difficulty]
    norm_num [leValue]
    rw [divide_genesis_by_one]
    decide
  · have hbt : bits_to_target 486604799 =
        List.replicate 26 0 ++ [255, 255] ++ List.replicate 4 0 := by decide
    rw [hbt]
    simp only [adjust_target_for_difficulty]
    norm_num [leValue]
    rw [divide_genesis_by_two]
    decide
  · intro divisor rem limb h
    simp only [divStep]
    rw [if_pos (le_of_lt h)]

/-- Witness for C5: a quotient above the u64 maximum (maximal limb divided
by one half) is clamped. -/
theorem claim_C5_witness :
    (18446744073709551615 : ℚ) <
      (((18446744073709551615 : Nat) : ℚ) + 0 * 18446744073709551616) / (1 / 2) ∧
    (divStep (1 / 2) 18446744073709551615 0).1 = 18446744073709551615 :=
  ⟨by norm_num, claim_C5.2.2 (1 / 2) 0 18446744073709551615 (by norm_num)⟩

/-- Counterexample to claim C7 as stated: the lane-0 start nonce is a raw
32-bit random value, so with `esp_random() = 0x80000000` lane 0 begins
outside `[0, 0x80000000)`. -/
theorem claim_C7_counterexample :
    ¬ laneNonce (startNonce0 2147483648) 0 < 2147483648 := by decide

/-- Claim C7 as amended: the two lanes start `0x80000000` apart (a random
offset plus the half constant, both reduced mod 2^32) and wrap modulo 2^32
rather than at the half boundary; the nonces scanned during the first 2^31
steps of each lane never collide. -/
theorem claim_C7_amended (r k j : Nat) (hk : k < 2147483648) (hj : j < 2147483648) :
    laneNonce (startNonce0 r) k ≠ laneNonce (startNonce1 r) j := by
  unfold laneNonce startNonce0 startNonce1
  omega

/-- Witness for C7 (amended): the first nonce of each lane differs. -/
theorem claim_C7_witness :
    (0 : Nat) < 2147483648 ∧
    laneNonce (startNonce0 5) 0 ≠ laneNonce (startNonce1 5) 0 :=
  ⟨by decide, claim_C7_amended 5 0 0 (by decide) (by decide)⟩

/-- Counterexample to claim C8 as stated: `encodeExtraNonce` renders the
extranonce with the uppercase digit table, so the byte 0xAB is emitted as
`"AB"`, which is not lowercase hex. -/
theorem claim_C8_counterexample :
    encodeExtraNonce 1 171 = ['A', 'B'] ∧ ¬ isLowerHexDigit 'A' := by
  exact ⟨rfl, by decide⟩

/-- Claim C8 as amended: nonce and ntime are emitted as exactly 8 lowercase
hex digits encoding the value big-endian and parse back to the original u32;
the extranonce2 hex has length `2 * size` and parses back to the value
modulo `256 ^ size`, but its digits come from the uppercase alphabet, not
the lowercase one. -/
theorem claim_C8_amended :
    (∀ v : Nat, v < 4294967296 →
      (formatHex8 v).length = 8 ∧ (∀ c ∈ formatHex8 v, isLowerHexDigit c) ∧
        parseHex (formatHex8 v) = v) ∧
    (∀ size en : Nat,
      (encodeExtraNonce size en).length = 2 * size ∧
        (∀ c ∈ encodeExtraNonce size en, isUpperHexDigit c) ∧
        parseHex (encodeExtraNonce size en) = en % 256 ^ size) := by
  constructor
  · intro v hv
    refine ⟨formatHexAux_length 8 v, fun c hc => formatHexAux_mem 8 v c hc, ?_⟩
    rw [formatHex8, formatHexAux_parse]
    exact Nat.mod_eq_of_lt (by omega)
  · intro size en
    exact ⟨encodeExtraNonce_length size en,
      fun c hc => encodeExtraNonce_mem size en c hc,
      encodeExtraNonce_parse size en⟩

/-- Witness for C8 (amended): a concrete nonce round-trips through the
8-digit encoder. -/
theorem claim_C8_witness :
    (3735928559 : Nat) < 4294967296 ∧ parseHex (formatHex8 3735928559) = 3735928559 :=
  ⟨by norm_num, (claim_C8_amended.1 3735928559 (by norm_num)).2.2⟩

/-- Claim C9: every id `getNextId` hands out is nonzero, and consecutive ids
increase by one except at the wrap, where the id returns to 1. -/
theorem claim_C9 : ∀ n : Nat, msgId n ≠ 0 ∧ (msgId (n + 1) = msgId n + 1 ∨ msgId (n + 1) = 1) := by
  intro n
  have h1 := msgIdState_bounds n
  have h2 := msgIdState_bounds (n + 1)
  simp only [msgId, msgIdState, getNextId] at *
  split_ifs at * <;> omega

/-- Claim C10: `submitShare` always places the primary pool's wallet in the
username slot of `mining.submit`, even in a state where the live session was
subscribed and authorized with the backup pool's own wallet. -/
theorem claim_C10 (st : StratumState) (entry : submit_entry_t) (h : st.usingBackup = true) :
    (submitShare st entry).getD 0 [] = st.primaryPool.wallet ∧
    sessionWallet st = st.backupPool.wallet := by
  simp [submitShare, sessionWallet, h]

/-- Witness for C10: a state connected to the backup pool still submits
under the primary wallet. -/
theorem claim_C10_witness :
    demoState.usingBackup = true ∧
    (submitShare demoState demoEntry).getD 0 [] = demoState.primaryPool.wallet ∧
    sessionWallet demoState = demoState.backupPool.wallet :=
  ⟨rfl, claim_C10 demoState demoEntry rfl⟩

end SparkMiner
